import Mathlib

/-!
Verification of the shot-segmentation and cut-and-upload core of the
Video-Shot-Detector-Benchmark repository.

Python time values (floats) are embedded as rationals `ℚ`, so arithmetic
identities hold exactly ("within floating tolerance" in the spec).
The segmenter is `SmartSegmenter.segment` in `utils/shotcutter/segmenter.py`;
the pipeline lives in `utils/shotcutter/cutter.py` and
`utils/shotcutter/oss_uploader.py`.
-/

/-- `Shot` dataclass from `utils/shotcutter/detector.py` (lines 20-26). -/
structure Shot where
  start_frame : Int
  end_frame : Int
  start_time : ℚ
  end_time : ℚ
  duration : ℚ
deriving DecidableEq, Repr

/-- Loop state of `SmartSegmenter.segment` (`segmenter.py` lines 60-62):
the emitted segments, `current_start`, and `accumulated_duration`. -/
structure SegState where
  segments : List (ℚ × ℚ)
  current_start : ℚ
  accumulated : ℚ
deriving DecidableEq, Repr

/-- The `while remaining > self.max_duration` loop of `segmenter.py`
lines 82-85, returning the extended segment list together with the final
`shot_start` and `remaining`.  The `0 < maxd` conjunct in the guard only
encodes termination: the Python loop does not terminate when
`max_duration <= 0`, and every specified use has `max_duration > 0`. -/
def hardSplitLoop (maxd shot_start remaining : ℚ) (segs : List (ℚ × ℚ)) :
    List (ℚ × ℚ) × ℚ × ℚ :=
  if h : 0 < maxd ∧ maxd < remaining then
    hardSplitLoop maxd (shot_start + maxd) (remaining - maxd)
      (segs ++ [(shot_start, shot_start + maxd)])
  else
    (segs, shot_start, remaining)
termination_by (⌈remaining / maxd⌉).toNat
decreasing_by
  have h1 : (1 : ℚ) < remaining / maxd := (one_lt_div h.1).mpr h.2
  have h2 : (1 : ℤ) < ⌈remaining / maxd⌉ := Int.lt_ceil.mpr (by exact_mod_cast h1)
  have h3 : (remaining - maxd) / maxd = remaining / maxd - 1 := by
    rw [sub_div, div_self (ne_of_gt h.1)]
  rw [h3, Int.ceil_sub_one]
  omega

/-- One iteration of the `for i, shot in enumerate(shots)` loop of
`SmartSegmenter.segment` (`segmenter.py` lines 64-105). -/
def segStep (maxd : ℚ) (st : SegState) (shot : Shot) : SegState :=
  -- 情况1: 可以加入当前段
  if st.accumulated + shot.duration ≤ maxd then
    { st with accumulated := st.accumulated + shot.duration }
  -- 情况2: 单个镜头超长 → 硬截断
  else if maxd < shot.duration then
    let st1 : SegState :=
      if 0 < st.accumulated then
        { segments := st.segments ++ [(st.current_start, st.current_start + st.accumulated)],
          current_start := st.current_start + st.accumulated,
          accumulated := 0 }
      else st
    match hardSplitLoop maxd st1.current_start shot.duration st1.segments with
    | (segs, shot_start, remaining) =>
      if 0 < remaining then
        { segments := segs ++ [(shot_start, shot_start + remaining)],
          current_start := shot_start + remaining,
          accumulated := 0 }
      else
        { segments := segs, current_start := shot_start, accumulated := 0 }
  -- 情况3: 超出max_duration → 开始新段
  else
    if 0 < st.accumulated then
      { segments := st.segments ++ [(st.current_start, st.current_start + st.accumulated)],
        current_start := st.current_start + st.accumulated,
        accumulated := shot.duration }
    else
      { st with accumulated := shot.duration }

/-- `SmartSegmenter.segment` (`segmenter.py` lines 35-132).  The printing
and the advisory continuity self-check (lines 112-130) have no effect on
the returned value and are omitted. -/
def SmartSegmenter.segment (maxd : ℚ) (shots : List Shot) : List (ℚ × ℚ) :=
  if shots = [] then []
  else
    let final := shots.foldl (segStep maxd) ⟨[], 0, 0⟩
    -- 处理最后一段 (lines 107-110)
    if 0 < final.accumulated then
      final.segments ++ [(final.current_start, final.current_start + final.accumulated)]
    else
      final.segments

/-- Sum of segment durations. -/
def segsSum (l : List (ℚ × ℚ)) : ℚ := (l.map (fun p => p.2 - p.1)).sum

/-- Sum of shot durations. -/
def shotsSum (l : List Shot) : ℚ := (l.map Shot.duration).sum

/-- `IsChainFrom a l b`: the segments in `l` tile the interval from `a`
to `b` contiguously (each segment starts where the previous one ended). -/
def IsChainFrom : ℚ → List (ℚ × ℚ) → ℚ → Prop
  | a, [], b => a = b
  | a, (s, e) :: rest, b => s = a ∧ IsChainFrom e rest b

/-- `ShotsContiguousFrom a l`: the shots in `l` are ordered, non-overlapping
and cover `[a, last.end_time)` contiguously, each with positive duration and
`duration = end_time - start_time`.  This is the data-model invariant the
spec states for externally produced shot lists. -/
def ShotsContiguousFrom : ℚ → List Shot → Prop
  | _, [] => True
  | a, s :: rest =>
    s.start_time = a ∧ s.end_time = s.start_time + s.duration ∧ 0 < s.duration ∧
      ShotsContiguousFrom s.end_time rest

/-! ## Worker-pool sizing (`utils/shotcutter/cutter.py` lines 26-55) -/

/-- Model of Python `int(s)` on decimal integer strings: optional sign followed
by digits.  Any other string raises `ValueError` in Python, modeled as `none`. -/
def digitsToNat : List Char → Option Nat
  | [] => none
  | cs =>
    if cs.all Char.isDigit then
      some (cs.foldl (fun n c => 10 * n + (c.toNat - 48)) 0)
    else none

/-- Python `int(s)` for strings (sign and digits); `none` models `ValueError`. -/
def pyIntOfString (s : String) : Option Int :=
  match s.toList with
  | '-' :: rest => (digitsToNat rest).map (fun n => -(n : Int))
  | '+' :: rest => (digitsToNat rest).map (fun n => (n : Int))
  | cs => (digitsToNat cs).map (fun n => (n : Int))

/-- `get_max_workers` (`cutter.py` lines 26-55).
`cpu_count0` models `os.cpu_count()` (`none` when unavailable); `or 4` replaces
both `None` and `0`.  `int(cpu_count * 0.6)` truncates; on the represented
range the float product never crosses an integer boundary, so it equals
`⌊3 n / 5⌋`, which is Nat division.  `env_workers` models
`os.environ.get('SHOTCUTTER_MAX_WORKERS')`; an empty string is falsy in
Python and is skipped just like an absent variable. -/
def get_max_workers (cpu_count0 : Option Nat) (env_workers : Option String) : Int :=
  let cpu_count : Nat :=
    match cpu_count0 with
    | none => 4
    | some 0 => 4
    | some n => n
  let workers : Nat := 3 * cpu_count / 5
  let workers : Nat := max 2 (min 48 workers)
  match env_workers with
  | none => (workers : Int)
  | some s =>
    if s = "" then (workers : Int)
    else
      match pyIntOfString s with
      | some k => k
      | none => (workers : Int)

/-! ## Cut stage (`utils/shotcutter/cutter.py` lines 100-180) -/

/-- Outcome of the external `subprocess.run(['ffmpeg', ...], timeout=300)` call
in `_cut_single_segment`: a completed process with its return code, captured
stderr and the state of the output file it produced (size, or `none` when no
file was written), a `TimeoutExpired`, or some other raised exception. -/
inductive RunOutcome where
  | completed (returncode : Int) (stderr : String) (produced : Option Nat)
  | timedOut
  | raised (msg : String)
deriving DecidableEq, Repr

/-- The produced output file exists and is non-empty. -/
def RunOutcome.producedNonempty : RunOutcome → Bool
  | .completed _ _ (some n) => decide (0 < n)
  | _ => false

/-- Python `s[-200:]`. -/
def pyTail200 (s : String) : String := s.drop (s.length - 200)

/-- Result dict of `_cut_single_segment`; the dict key `"end"` is the field
`stop` (`end` is reserved in Lean) and `status` is `true` for `"success"`,
`false` for `"failed"`. -/
structure CutResult where
  index : Nat
  path : Option String
  start : ℚ
  stop : ℚ
  status : Bool
  error : Option String
deriving DecidableEq, Repr

/-- `_cut_single_segment` (`cutter.py` lines 100-180), with the external
subprocess call abstracted into its `RunOutcome`. -/
def cutSingleSegment (outcome : RunOutcome) (video_path : String)
    (start stop : ℚ) (output_path : String) (index : Nat) : CutResult :=
  match outcome with
  | .completed rc stderr _ =>
    if rc = 0 then
      { index := index, path := some output_path, start := start, stop := stop,
        status := true, error := none }
    else
      { index := index, path := none, start := start, stop := stop,
        status := false, error := some ("ffmpeg错误: " ++ pyTail200 stderr) }
  | .timedOut =>
      { index := index, path := none, start := start, stop := stop,
        status := false, error := some "切割超时（5分钟）" }
  | .raised msg =>
      { index := index, path := none, start := start, stop := stop,
        status := false, error := some msg }

/-! ## Upload stage (`utils/shotcutter/cutter.py` lines 183-216,
`utils/shotcutter/oss_uploader.py` lines 28-51) -/

/-- Python `round(x, 1)` on exact values: nearest multiple of `1/10`,
ties to even. -/
def roundHalfEven (x : ℚ) : ℤ :=
  if x - ⌊x⌋ = 1 / 2 then (if 2 ∣ ⌊x⌋ then ⌊x⌋ else ⌊x⌋ + 1) else round x

/-- Python `round(x, 1)`. -/
def pyRound1 (x : ℚ) : ℚ := (roundHalfEven (10 * x) : ℚ) / 10

/-- Result dict of `_upload_single_segment` (dict key `"end"` is field
`stop`, status string is a Bool as in `CutResult`). -/
structure UploadResult where
  index : Nat
  start : ℚ
  stop : ℚ
  duration : ℚ
  task_id : String
  oss_url : Option String
  status : Bool
  error : Option String
deriving DecidableEq, Repr

/-- `upload_to_oss_from_local` (`oss_uploader.py` lines 28-51).
`readFile` models `open(video_path, 'rb').read()` (`error` = raised IO
exception); `putObject` models `_bucket.put_object`, returning the HTTP
status or a raised exception; `file_extension` models
`os.path.splitext(video_path)[-1]` and `bucket_name` the configured bucket.
On a non-200 status the function RETURNS `str(result.status)` — it does not
raise. -/
def upload_to_oss_from_local (readFile : String → Except String Unit)
    (putObject : String → Except String Nat)
    (file_extension bucket_name : String)
    (video_path task_id : String) : Except String String :=
  match readFile video_path with
  | .error e => .error e
  | .ok _ =>
    let object_key := task_id ++ (if file_extension = "" then ".mp4" else file_extension)
    match putObject object_key with
    | .error e => .error e
    | .ok status =>
      if status = 200 then
        .ok ("https://" ++ bucket_name ++ ".oss-cn-hangzhou.aliyuncs.com/" ++ object_key)
      else
        .ok (toString status)

/-- `_upload_single_segment` (`cutter.py` lines 183-216), abstracted over the
uploader function it calls (`error` = the uploader raised an exception,
which the `except` block turns into a failed record). -/
def uploadSingle (uploader : String → String → Except String String)
    (local_path task_id : String) (index : Nat) (start stop : ℚ) : UploadResult :=
  match uploader local_path task_id with
  | .ok url =>
    { index := index, start := pyRound1 start, stop := pyRound1 stop,
      duration := pyRound1 (stop - start), task_id := task_id,
      oss_url := some url, status := true, error := none }
  | .error e =>
    { index := index, start := pyRound1 start, stop := pyRound1 stop,
      duration := pyRound1 (stop - start), task_id := task_id,
      oss_url := none, status := false, error := some e }

/-- `_upload_single_segment` with the concrete `upload_to_oss_from_local`
uploader it calls in the source. -/
def uploadSingleViaOss (readFile : String → Except String Unit)
    (putObject : String → Except String Nat)
    (file_extension bucket_name : String)
    (local_path task_id : String) (index : Nat) (start stop : ℚ) : UploadResult :=
  uploadSingle (upload_to_oss_from_local readFile putObject file_extension bucket_name)
    local_path task_id index start stop

/-! ## `cut_and_upload` (`utils/shotcutter/cutter.py` lines 219-324) -/

/-- `os.path.join(temp_dir, f"segment_і.mp4")` for segment number `i`. -/
def outputPath (temp_dir : String) (i : Nat) : String :=
  temp_dir ++ "/segment_" ++ toString i ++ ".mp4"

/-- The cut-stage task results in task-submission order (`cutter.py` lines
257-269): task `idx+1` cuts `segments[idx]` to `segment_{idx+1}.mp4`.  The
`run` oracle gives each task's external subprocess outcome.
`as_completed` delivers these in an arbitrary order; theorems quantify over
permutations of this list. -/
def cutStage (run : Nat → RunOutcome) (video_path temp_dir : String)
    (segments : List (ℚ × ℚ)) : List CutResult :=
  segments.enum.map fun p =>
    cutSingleSegment (run (p.1 + 1)) video_path p.2.1 p.2.2
      (outputPath temp_dir (p.1 + 1)) (p.1 + 1)

/-- The upload-stage task results in task-submission order (`cutter.py`
lines 284-296): one task per successful cut, named `name-{index}`. -/
def uploadStage (uploader : String → String → Except String String)
    (name : String) (success_cuts : List CutResult) : List UploadResult :=
  success_cuts.map fun r =>
    uploadSingle uploader (r.path.getD "") (name ++ "-" ++ toString r.index)
      r.index r.start r.stop

/-- A returned entry of `cut_and_upload` after `r.pop("status", None)`
(`cutter.py` lines 312-320): exactly the fields index, start, end, duration,
task_id, oss_url. -/
structure FinalResult where
  index : Nat
  start : ℚ
  stop : ℚ
  duration : ℚ
  task_id : String
  oss_url : Option String
deriving DecidableEq, Repr

/-- Dropping the internal `status` (and `error`) flags (`cutter.py` line 320). -/
def stripStatus (r : UploadResult) : FinalResult :=
  { index := r.index, start := r.start, stop := r.stop, duration := r.duration,
    task_id := r.task_id, oss_url := r.oss_url }

/-- Lines 312-320 of `cutter.py`: keep the successful uploads, sort by
`index` (Python `sorted` keeps a stable total preorder; modeled by insertion
sort on the key), and strip the status flag. -/
def finalizeUploads (upload_results : List UploadResult) : List FinalResult :=
  (List.insertionSort (fun a b => a.index ≤ b.index)
      (upload_results.filter (fun r => r.status))).map stripStatus

/-- `cut_and_upload` (`cutter.py` lines 219-324) with both stages collected
in task-submission order (one representative of the `as_completed`
nondeterminism; the main theorem quantifies over all completion orders). -/
def cut_and_upload (run : Nat → RunOutcome)
    (uploader : String → String → Except String String)
    (video_path temp_dir name : String) (segments : List (ℚ × ℚ)) : List FinalResult :=
  finalizeUploads (uploadStage uploader name
    ((cutStage run video_path temp_dir segments).filter (fun r => r.status)))

/-- The cut result of task `k+1` (segment at position `k`). -/
def cutResultAt (run : Nat → RunOutcome) (video_path temp_dir : String)
    (segments : List (ℚ × ℚ)) (k : Nat) : CutResult :=
  cutSingleSegment (run (k + 1)) video_path (segments.getD k (0, 0)).1
    (segments.getD k (0, 0)).2 (outputPath temp_dir (k + 1)) (k + 1)

/-- The upload result of task `k+1`, fed by its cut result. -/
def uploadResultAt (run : Nat → RunOutcome)
    (uploader : String → String → Except String String)
    (video_path temp_dir name : String) (segments : List (ℚ × ℚ)) (k : Nat) :
    UploadResult :=
  uploadSingle uploader
    ((cutResultAt run video_path temp_dir segments k).path.getD "")
    (name ++ "-" ++ toString (k + 1)) (k + 1)
    (cutResultAt run video_path temp_dir segments k).start
    (cutResultAt run video_path temp_dir segments k).stop

/-- The sort key used by Python `sorted(..., key=lambda x: x["index"])`:
index order on upload results. -/
instance : IsTotal UploadResult (fun a b => a.index ≤ b.index) :=
  ⟨fun a b => Nat.le_total a.index b.index⟩

instance : IsTrans UploadResult (fun a b => a.index ≤ b.index) :=
  ⟨fun _ _ _ h1 h2 => Nat.le_trans h1 h2⟩

instance : IsAntisymm UploadResult (fun a b => a.index < b.index) :=
  ⟨fun _ _ h1 h2 => absurd (Nat.lt_trans h1 h2) (Nat.lt_irrefl _)⟩

/-! ## Lemmas about the hard-split loop -/

theorem hsl_exit (maxd a rem : ℚ) (segs : List (ℚ × ℚ)) (h : ¬(0 < maxd ∧ maxd < rem)) :
    hardSplitLoop maxd a rem segs = (segs, a, rem) := by
  rw [hardSplitLoop]
  simp [h]

theorem hsl_step (maxd a rem : ℚ) (segs : List (ℚ × ℚ)) (h1 : 0 < maxd)
    (h2 : maxd < rem) :
    hardSplitLoop maxd a rem segs =
      hardSplitLoop maxd (a + maxd) (rem - maxd) (segs ++ [(a, a + maxd)]) := by
  conv_lhs => rw [hardSplitLoop]
  rw [dif_pos ⟨h1, h2⟩]

theorem segsSum_append (l1 l2 : List (ℚ × ℚ)) :
    segsSum (l1 ++ l2) = segsSum l1 + segsSum l2 := by
  simp [segsSum]

theorem isChainFrom_append (a b c : ℚ) (l : List (ℚ × ℚ)) (h : IsChainFrom a l b) :
    IsChainFrom a (l ++ [(b, c)]) c := by
  induction l generalizing a with
  | nil =>
    simp only [IsChainFrom] at h
    simp [IsChainFrom, h]
  | cons p rest ih =>
    obtain ⟨s, e⟩ := p
    obtain ⟨hs, hrest⟩ := h
    exact ⟨hs, ih e hrest⟩

theorem hsl_chain (maxd c : ℚ) : ∀ (a rem : ℚ) (segs : List (ℚ × ℚ)),
    IsChainFrom c segs a →
    IsChainFrom c (hardSplitLoop maxd a rem segs).1 (hardSplitLoop maxd a rem segs).2.1 := by
  intro a rem segs
  induction a, rem, segs using hardSplitLoop.induct maxd with
  | case1 a rem segs hg ih =>
    intro h
    rw [hsl_step maxd a rem segs hg.1 hg.2]
    exact ih (isChainFrom_append c a (a + maxd) segs h)
  | case2 a rem segs hg =>
    intro h
    rw [hsl_exit maxd a rem segs hg]
    exact h

theorem hsl_sum (maxd : ℚ) : ∀ (a rem : ℚ) (segs : List (ℚ × ℚ)),
    segsSum (hardSplitLoop maxd a rem segs).1 + (hardSplitLoop maxd a rem segs).2.2 =
      segsSum segs + rem := by
  intro a rem segs
  induction a, rem, segs using hardSplitLoop.induct maxd with
  | case1 a rem segs hg ih =>
    rw [hsl_step maxd a rem segs hg.1 hg.2]
    rw [ih, segsSum_append]
    simp [segsSum]
  | case2 a rem segs hg =>
    rw [hsl_exit maxd a rem segs hg]

theorem hsl_bound (maxd : ℚ) : ∀ (a rem : ℚ) (segs : List (ℚ × ℚ)),
    (∀ p ∈ segs, p.2 - p.1 ≤ maxd) →
    ∀ p ∈ (hardSplitLoop maxd a rem segs).1, p.2 - p.1 ≤ maxd := by
  intro a rem segs
  induction a, rem, segs using hardSplitLoop.induct maxd with
  | case1 a rem segs hg ih =>
    intro h
    rw [hsl_step maxd a rem segs hg.1 hg.2]
    refine ih fun p hp => ?_
    rcases List.mem_append.mp hp with h1 | h2
    · exact h p h1
    · simp at h2
      simp [h2]
  | case2 a rem segs hg =>
    intro h
    rw [hsl_exit maxd a rem segs hg]
    exact h

theorem hsl_rem_le (maxd : ℚ) (hm : 0 < maxd) : ∀ (a rem : ℚ) (segs : List (ℚ × ℚ)),
    (hardSplitLoop maxd a rem segs).2.2 ≤ maxd := by
  intro a rem segs
  induction a, rem, segs using hardSplitLoop.induct maxd with
  | case1 a rem segs hg ih =>
    rw [hsl_step maxd a rem segs hg.1 hg.2]
    exact ih
  | case2 a rem segs hg =>
    rw [hsl_exit maxd a rem segs hg]
    push_neg at hg
    exact hg hm

theorem hsl_rem_pos (maxd : ℚ) : ∀ (a rem : ℚ) (segs : List (ℚ × ℚ)), 0 < rem →
    0 < (hardSplitLoop maxd a rem segs).2.2 := by
  intro a rem segs
  induction a, rem, segs using hardSplitLoop.induct maxd with
  | case1 a rem segs hg ih =>
    intro _
    rw [hsl_step maxd a rem segs hg.1 hg.2]
    exact ih (by linarith [hg.1, hg.2])
  | case2 a rem segs hg =>
    intro h
    rw [hsl_exit maxd a rem segs hg]
    exact h

/-! ## Lemmas about contiguous chains -/

theorem isChainFrom_head (a b : ℚ) (l : List (ℚ × ℚ)) (h : IsChainFrom a l b) :
    ∀ p ∈ l.head?, p.1 = a := by
  cases l with
  | nil => simp
  | cons p rest =>
    obtain ⟨s, e⟩ := p
    intro q hq
    simp only [List.head?_cons, Option.mem_def, Option.some.injEq] at hq
    rw [← hq]
    exact h.1

theorem isChainFrom_chain' (a b : ℚ) (l : List (ℚ × ℚ)) (h : IsChainFrom a l b) :
    List.Chain' (fun p q => q.1 = p.2) l := by
  induction l generalizing a with
  | nil => simp
  | cons p rest ih =>
    obtain ⟨s, e⟩ := p
    refine List.chain'_cons'.mpr ⟨?_, ih e h.2⟩
    intro q hq
    exact isChainFrom_head e b rest h.2 q hq

theorem isChainFrom_getLast (a b : ℚ) (l : List (ℚ × ℚ)) (h : IsChainFrom a l b) :
    ∀ p ∈ l.getLast?, p.2 = b := by
  induction l generalizing a with
  | nil => simp
  | cons p rest ih =>
    obtain ⟨s, e⟩ := p
    cases rest with
    | nil =>
      intro q hq
      simp only [List.getLast?_singleton, Option.mem_def, Option.some.injEq] at hq
      rw [← hq]
      exact h.2
    | cons p2 rest2 =>
      intro q hq
      rw [List.getLast?_cons_cons] at hq
      exact ih e h.2 q hq

theorem isChainFrom_sum (a b : ℚ) (l : List (ℚ × ℚ)) (h : IsChainFrom a l b) :
    segsSum l = b - a := by
  induction l generalizing a with
  | nil =>
    simp only [IsChainFrom] at h
    simp [segsSum, h]
  | cons p rest ih =>
    obtain ⟨s, e⟩ := p
    have : segsSum ((s, e) :: rest) = (e - s) + segsSum rest := by simp [segsSum]
    rw [this, ih e h.2, h.1]
    ring

/-! ## Per-step invariants of the segmentation loop -/

theorem segStep_chain (maxd : ℚ) (st : SegState) (sh : Shot)
    (h : IsChainFrom 0 st.segments st.current_start) :
    IsChainFrom 0 (segStep maxd st sh).segments (segStep maxd st sh).current_start := by
  unfold segStep
  by_cases h1 : st.accumulated + sh.duration ≤ maxd
  · simpa [h1] using h
  · simp only [h1, if_false]
    by_cases h2 : maxd < sh.duration
    · simp only [h2, if_true]
      by_cases h3 : 0 < st.accumulated
      · simp only [h3, if_true]
        have hchain := isChainFrom_append 0 st.current_start
          (st.current_start + st.accumulated) st.segments h
        have hloop := hsl_chain maxd 0 (st.current_start + st.accumulated) sh.duration
          (st.segments ++ [(st.current_start, st.current_start + st.accumulated)]) hchain
        rcases hr : hardSplitLoop maxd (st.current_start + st.accumulated) sh.duration
          (st.segments ++ [(st.current_start, st.current_start + st.accumulated)]) with
          ⟨segs, ss, rem⟩
        rw [hr] at hloop
        by_cases h4 : 0 < rem
        · simp only [h4, if_true]
          exact isChainFrom_append 0 ss (ss + rem) segs hloop
        · simp only [h4, if_false]
          exact hloop
      · simp only [h3, if_false]
        have hloop := hsl_chain maxd 0 st.current_start sh.duration st.segments h
        rcases hr : hardSplitLoop maxd st.current_start sh.duration st.segments with
          ⟨segs, ss, rem⟩
        rw [hr] at hloop
        by_cases h4 : 0 < rem
        · simp only [h4, if_true]
          exact isChainFrom_append 0 ss (ss + rem) segs hloop
        · simp only [h4, if_false]
          exact hloop
    · simp only [h2, if_false]
      by_cases h3 : 0 < st.accumulated
      · simp only [h3, if_true]
        exact isChainFrom_append 0 st.current_start
          (st.current_start + st.accumulated) st.segments h
      · simpa [h3] using h

theorem segStep_sum (maxd : ℚ) (hm : 0 < maxd) (st : SegState) (sh : Shot)
    (hacc : 0 ≤ st.accumulated) (hd : 0 ≤ sh.duration) :
    segsSum (segStep maxd st sh).segments + (segStep maxd st sh).accumulated =
      segsSum st.segments + st.accumulated + sh.duration ∧
    0 ≤ (segStep maxd st sh).accumulated := by
  unfold segStep
  by_cases h1 : st.accumulated + sh.duration ≤ maxd
  · simp only [h1, if_true]
    constructor
    · simp [add_assoc]
    · simpa using add_nonneg hacc hd
  · simp only [h1, if_false]
    by_cases h2 : maxd < sh.duration
    · simp only [h2, if_true]
      have hdpos : 0 < sh.duration := lt_trans hm h2
      by_cases h3 : 0 < st.accumulated
      · simp only [h3, if_true]
        have hsum := hsl_sum maxd (st.current_start + st.accumulated) sh.duration
          (st.segments ++ [(st.current_start, st.current_start + st.accumulated)])
        have hpos := hsl_rem_pos maxd (st.current_start + st.accumulated) sh.duration
          (st.segments ++ [(st.current_start, st.current_start + st.accumulated)]) hdpos
        rcases hr : hardSplitLoop maxd (st.current_start + st.accumulated) sh.duration
          (st.segments ++ [(st.current_start, st.current_start + st.accumulated)]) with
          ⟨segs, ss, rem⟩
        rw [hr] at hsum hpos
        simp only at hsum hpos
        simp only [hpos, if_true]
        constructor
        · rw [segsSum_append] at hsum ⊢
          have h5 : segsSum [(ss, ss + rem)] = rem := by simp [segsSum]
          have h6 : segsSum [(st.current_start, st.current_start + st.accumulated)] =
              st.accumulated := by simp [segsSum]
          rw [h5]
          rw [h6] at hsum
          linarith
        · simp
      · simp only [h3, if_false]
        have hsum := hsl_sum maxd st.current_start sh.duration st.segments
        have hpos := hsl_rem_pos maxd st.current_start sh.duration st.segments hdpos
        rcases hr : hardSplitLoop maxd st.current_start sh.duration st.segments with
          ⟨segs, ss, rem⟩
        rw [hr] at hsum hpos
        simp only at hsum hpos
        simp only [hpos, if_true]
        have hacc0 : st.accumulated = 0 := le_antisymm (not_lt.mp h3) hacc
        constructor
        · rw [segsSum_append]
          have h5 : segsSum [(ss, ss + rem)] = rem := by simp [segsSum]
          rw [h5, hacc0]
          linarith
        · simp
    · simp only [h2, if_false]
      by_cases h3 : 0 < st.accumulated
      · simp only [h3, if_true]
        constructor
        · rw [segsSum_append]
          simp [segsSum]
        · exact hd
      · simp only [h3, if_false]
        have hacc0 : st.accumulated = 0 := le_antisymm (not_lt.mp h3) hacc
        constructor
        · simp [hacc0]
        · exact hd

theorem segStep_bound (maxd : ℚ) (hm : 0 < maxd) (st : SegState) (sh : Shot)
    (hacc : st.accumulated ≤ maxd) (hsegs : ∀ p ∈ st.segments, p.2 - p.1 ≤ maxd) :
    (segStep maxd st sh).accumulated ≤ maxd ∧
    ∀ p ∈ (segStep maxd st sh).segments, p.2 - p.1 ≤ maxd := by
  unfold segStep
  by_cases h1 : st.accumulated + sh.duration ≤ maxd
  · simp only [h1, if_true]
    exact ⟨by simpa using h1, hsegs⟩
  · simp only [h1, if_false]
    by_cases h2 : maxd < sh.duration
    · simp only [h2, if_true]
      by_cases h3 : 0 < st.accumulated
      · simp only [h3, if_true]
        have hsegs1 : ∀ p ∈ st.segments ++ [(st.current_start, st.current_start + st.accumulated)],
            p.2 - p.1 ≤ maxd := by
          intro p hp
          rcases List.mem_append.mp hp with hp1 | hp2
          · exact hsegs p hp1
          · simp at hp2
            simp [hp2, hacc]
        have hbd := hsl_bound maxd (st.current_start + st.accumulated) sh.duration
          (st.segments ++ [(st.current_start, st.current_start + st.accumulated)]) hsegs1
        have hrle := hsl_rem_le maxd hm (st.current_start + st.accumulated) sh.duration
          (st.segments ++ [(st.current_start, st.current_start + st.accumulated)])
        rcases hr : hardSplitLoop maxd (st.current_start + st.accumulated) sh.duration
          (st.segments ++ [(st.current_start, st.current_start + st.accumulated)]) with
          ⟨segs, ss, rem⟩
        rw [hr] at hbd hrle
        simp only at hbd hrle
        by_cases h4 : 0 < rem
        · simp only [h4, if_true]
          refine ⟨le_of_lt hm, fun p hp => ?_⟩
          rcases List.mem_append.mp hp with hp1 | hp2
          · exact hbd p hp1
          · simp at hp2
            simp [hp2, hrle]
        · simp only [h4, if_false]
          exact ⟨le_of_lt hm, hbd⟩
      · simp only [h3, if_false]
        have hbd := hsl_bound maxd st.current_start sh.duration st.segments hsegs
        have hrle := hsl_rem_le maxd hm st.current_start sh.duration st.segments
        rcases hr : hardSplitLoop maxd st.current_start sh.duration st.segments with
          ⟨segs, ss, rem⟩
        rw [hr] at hbd hrle
        simp only at hbd hrle
        by_cases h4 : 0 < rem
        · simp only [h4, if_true]
          refine ⟨le_of_lt hm, fun p hp => ?_⟩
          rcases List.mem_append.mp hp with hp1 | hp2
          · exact hbd p hp1
          · simp at hp2
            simp [hp2, hrle]
        · simp only [h4, if_false]
          exact ⟨le_of_lt hm, hbd⟩
    · simp only [h2, if_false]
      have hdur : sh.duration ≤ maxd := not_lt.mp h2
      by_cases h3 : 0 < st.accumulated
      · simp only [h3, if_true]
        refine ⟨hdur, fun p hp => ?_⟩
        rcases List.mem_append.mp hp with hp1 | hp2
        · exact hsegs p hp1
        · simp at hp2
          simp [hp2, hacc]
      · simp only [h3, if_false]
        exact ⟨hdur, hsegs⟩

theorem segStep_progress (maxd : ℚ) (hm : 0 < maxd) (st : SegState) (sh : Shot)
    (hacc : 0 ≤ st.accumulated) (hd : 0 < sh.duration) :
    (segStep maxd st sh).segments ≠ [] ∨ 0 < (segStep maxd st sh).accumulated := by
  unfold segStep
  by_cases h1 : st.accumulated + sh.duration ≤ maxd
  · simp only [h1, if_true]
    right
    simpa using add_pos_of_nonneg_of_pos hacc hd
  · simp only [h1, if_false]
    by_cases h2 : maxd < sh.duration
    · simp only [h2, if_true]
      have hdpos : 0 < sh.duration := lt_trans hm h2
      by_cases h3 : 0 < st.accumulated
      · simp only [h3, if_true]
        have hpos := hsl_rem_pos maxd (st.current_start + st.accumulated) sh.duration
          (st.segments ++ [(st.current_start, st.current_start + st.accumulated)]) hdpos
        rcases hr : hardSplitLoop maxd (st.current_start + st.accumulated) sh.duration
          (st.segments ++ [(st.current_start, st.current_start + st.accumulated)]) with
          ⟨segs, ss, rem⟩
        rw [hr] at hpos
        simp only at hpos
        simp only [hpos, if_true]
        left
        simp
      · simp only [h3, if_false]
        have hpos := hsl_rem_pos maxd st.current_start sh.duration st.segments hdpos
        rcases hr : hardSplitLoop maxd st.current_start sh.duration st.segments with
          ⟨segs, ss, rem⟩
        rw [hr] at hpos
        simp only at hpos
        simp only [hpos, if_true]
        left
        simp
    · simp only [h2, if_false]
      by_cases h3 : 0 < st.accumulated
      · simp only [h3, if_true]
        left
        simp
      · simp only [h3, if_false]
        right
        exact hd

/-! ## Fold-level invariants of the segmentation loop -/

theorem foldl_segStep_chain (maxd : ℚ) (shots : List Shot) :
    ∀ st : SegState, IsChainFrom 0 st.segments st.current_start →
    IsChainFrom 0 (shots.foldl (segStep maxd) st).segments
      (shots.foldl (segStep maxd) st).current_start := by
  induction shots with
  | nil => intro st h; exact h
  | cons sh rest ih =>
    intro st h
    exact ih (segStep maxd st sh) (segStep_chain maxd st sh h)

theorem foldl_segStep_sum (maxd : ℚ) (hm : 0 < maxd) (shots : List Shot)
    (hd : ∀ s ∈ shots, 0 ≤ s.duration) :
    ∀ st : SegState, 0 ≤ st.accumulated →
    segsSum (shots.foldl (segStep maxd) st).segments +
        (shots.foldl (segStep maxd) st).accumulated =
      segsSum st.segments + st.accumulated + shotsSum shots ∧
    0 ≤ (shots.foldl (segStep maxd) st).accumulated := by
  induction shots with
  | nil =>
    intro st hacc
    simp [shotsSum]
    exact hacc
  | cons sh rest ih =>
    intro st hacc
    have hd0 : 0 ≤ sh.duration := hd sh (List.mem_cons_self sh rest)
    have hstep := segStep_sum maxd hm st sh hacc hd0
    have hrest := ih (fun s hs => hd s (List.mem_cons_of_mem sh hs))
      (segStep maxd st sh) hstep.2
    refine ⟨?_, hrest.2⟩
    rw [List.foldl_cons, hrest.1, hstep.1]
    have : shotsSum (sh :: rest) = sh.duration + shotsSum rest := by simp [shotsSum]
    rw [this]
    ring

theorem foldl_segStep_bound (maxd : ℚ) (hm : 0 < maxd) (shots : List Shot) :
    ∀ st : SegState, st.accumulated ≤ maxd →
    (∀ p ∈ st.segments, p.2 - p.1 ≤ maxd) →
    (shots.foldl (segStep maxd) st).accumulated ≤ maxd ∧
    ∀ p ∈ (shots.foldl (segStep maxd) st).segments, p.2 - p.1 ≤ maxd := by
  induction shots with
  | nil => intro st h1 h2; exact ⟨h1, h2⟩
  | cons sh rest ih =>
    intro st h1 h2
    have hstep := segStep_bound maxd hm st sh h1 h2
    exact ih (segStep maxd st sh) hstep.1 hstep.2

theorem foldl_segStep_progress (maxd : ℚ) (hm : 0 < maxd) (shots : List Shot)
    (hd : ∀ s ∈ shots, 0 < s.duration) (hne : shots ≠ []) :
    ∀ st : SegState, 0 ≤ st.accumulated →
    (shots.foldl (segStep maxd) st).segments ≠ [] ∨
      0 < (shots.foldl (segStep maxd) st).accumulated := by
  induction shots with
  | nil => exact absurd rfl hne
  | cons sh rest ih =>
    intro st hacc
    have hd0 : 0 < sh.duration := hd sh (List.mem_cons_self sh rest)
    have hstep := segStep_progress maxd hm st sh hacc hd0
    have hnn := segStep_sum maxd hm st sh hacc (le_of_lt hd0)
    rw [List.foldl_cons]
    cases rest with
    | nil => simpa using hstep
    | cons sh2 rest2 =>
      exact ih (fun s hs => hd s (List.mem_cons_of_mem sh hs)) (by simp)
        (segStep maxd st sh) hnn.2

/-- The returned segment list always tiles an interval `[0, b]` contiguously. -/
theorem segment_isChain (maxd : ℚ) (shots : List Shot) :
    ∃ b : ℚ, IsChainFrom 0 (SmartSegmenter.segment maxd shots) b := by
  unfold SmartSegmenter.segment
  by_cases hne : shots = []
  · exact ⟨0, by simp [hne, IsChainFrom]⟩
  · simp only [hne, if_false]
    have hchain := foldl_segStep_chain maxd shots ⟨[], 0, 0⟩ (by simp [IsChainFrom])
    set final := shots.foldl (segStep maxd) ⟨[], 0, 0⟩ with hf
    by_cases hacc : 0 < final.accumulated
    · simp only [hacc, if_true]
      exact ⟨final.current_start + final.accumulated,
        isChainFrom_append 0 final.current_start
          (final.current_start + final.accumulated) final.segments hchain⟩
    · simp only [hacc, if_false]
      exact ⟨final.current_start, hchain⟩

/-- C1: for every non-empty shot list (positive durations, as the data model
requires) and `max_duration > 0`, the returned segment list is non-empty and
seamless: its first segment starts exactly at `0.0` (whatever the first
shot's recorded `start_time` is), and each later segment starts exactly
where the previous one ends (zero gap, zero overlap). -/
theorem segment_seamless (maxd : ℚ) (shots : List Shot) (hm : 0 < maxd)
    (hne : shots ≠ []) (hd : ∀ s ∈ shots, 0 < s.duration) :
    SmartSegmenter.segment maxd shots ≠ [] ∧
    (∀ p ∈ (SmartSegmenter.segment maxd shots).head?, p.1 = 0) ∧
    List.Chain' (fun p q => q.1 = p.2) (SmartSegmenter.segment maxd shots) := by
  obtain ⟨b, hchain⟩ := segment_isChain maxd shots
  refine ⟨?_, isChainFrom_head 0 b _ hchain, isChainFrom_chain' 0 b _ hchain⟩
  unfold SmartSegmenter.segment
  simp only [hne, if_false]
  have hprog := foldl_segStep_progress maxd hm shots hd hne ⟨[], 0, 0⟩ (by simp)
  set final := shots.foldl (segStep maxd) ⟨[], 0, 0⟩ with hf
  by_cases hacc : 0 < final.accumulated
  · simp [hacc]
  · simp only [hacc, if_false]
    rcases hprog with h | h
    · exact h
    · exact absurd h hacc

theorem segment_seamless_witness :
    (0 : ℚ) < 30 ∧ ([⟨0, 750, 0, 30, 30⟩] : List Shot) ≠ [] ∧
    (∀ s ∈ ([⟨0, 750, 0, 30, 30⟩] : List Shot), 0 < s.duration) ∧
    (SmartSegmenter.segment 30 [⟨0, 750, 0, 30, 30⟩] ≠ [] ∧
      (∀ p ∈ (SmartSegmenter.segment 30 [⟨0, 750, 0, 30, 30⟩]).head?, p.1 = 0) ∧
      List.Chain' (fun p q => q.1 = p.2) (SmartSegmenter.segment 30 [⟨0, 750, 0, 30, 30⟩])) :=
  ⟨by norm_num, by simp, by decide,
    segment_seamless 30 [⟨0, 750, 0, 30, 30⟩] (by norm_num) (by simp) (by decide)⟩

theorem shotsContiguous_duration_pos (a : ℚ) (l : List Shot)
    (h : ShotsContiguousFrom a l) : ∀ s ∈ l, 0 < s.duration := by
  induction l generalizing a with
  | nil => simp
  | cons sh rest ih =>
    intro s hs
    rcases List.mem_cons.mp hs with h1 | h2
    · rw [h1]; exact h.2.2.1
    · exact ih sh.end_time h.2.2.2 s h2

theorem shotsContiguous_getLast (a : ℚ) (l : List Shot)
    (h : ShotsContiguousFrom a l) :
    ∀ s ∈ l.getLast?, s.end_time = a + shotsSum l := by
  induction l generalizing a with
  | nil => simp
  | cons sh rest ih =>
    cases rest with
    | nil =>
      intro s hs
      simp only [List.getLast?_singleton, Option.mem_def, Option.some.injEq] at hs
      rw [← hs]
      have : shotsSum [sh] = sh.duration := by simp [shotsSum]
      rw [this, h.2.1, h.1]
    | cons sh2 rest2 =>
      intro s hs
      rw [List.getLast?_cons_cons] at hs
      have := ih sh.end_time h.2.2.2 s hs
      rw [this, h.2.1, h.1]
      have : shotsSum (sh :: sh2 :: rest2) = sh.duration + shotsSum (sh2 :: rest2) := by
        simp [shotsSum]
      rw [this]
      ring

/-- C2: for every non-empty shot list satisfying the data-model invariant
(ordered, non-overlapping, covering `[0, video_duration)`, positive
durations) and every `max_duration > 0`, the sum of the durations of the
returned segments equals the sum of the shot durations (exactly, in ℚ), and
the last segment's end equals the last shot's `end_time`. -/
theorem segment_conserves (maxd : ℚ) (shots : List Shot) (hm : 0 < maxd)
    (hne : shots ≠ []) (hcov : ShotsContiguousFrom 0 shots) :
    SmartSegmenter.segment maxd shots ≠ [] ∧
    segsSum (SmartSegmenter.segment maxd shots) = shotsSum shots ∧
    (∀ p ∈ (SmartSegmenter.segment maxd shots).getLast?, ∀ s ∈ shots.getLast?,
      p.2 = s.end_time) := by
  have hd : ∀ s ∈ shots, 0 < s.duration := shotsContiguous_duration_pos 0 shots hcov
  have hd0 : ∀ s ∈ shots, 0 ≤ s.duration := fun s hs => le_of_lt (hd s hs)
  have hsum := foldl_segStep_sum maxd hm shots hd0 ⟨[], 0, 0⟩ (by simp)
  have hchain := foldl_segStep_chain maxd shots ⟨[], 0, 0⟩ (by simp [IsChainFrom])
  have hprog := foldl_segStep_progress maxd hm shots hd hne ⟨[], 0, 0⟩ (by simp)
  have hsum0 : segsSum ([] : List (ℚ × ℚ)) = 0 := by simp [segsSum]
  -- the full returned list tiles [0, shotsSum shots]
  have key : IsChainFrom 0 (SmartSegmenter.segment maxd shots) (shotsSum shots) ∧
      SmartSegmenter.segment maxd shots ≠ [] := by
    unfold SmartSegmenter.segment
    simp only [hne, if_false]
    set final := shots.foldl (segStep maxd) ⟨[], 0, 0⟩ with hf
    have hcs : final.current_start = segsSum final.segments := by
      have := isChainFrom_sum 0 final.current_start final.segments hchain
      linarith
    by_cases hacc : 0 < final.accumulated
    · simp only [hacc, if_true]
      constructor
      · have happ := isChainFrom_append 0 final.current_start
          (final.current_start + final.accumulated) final.segments hchain
        have h1 : segsSum final.segments + final.accumulated = shotsSum shots := by
          simpa [hsum0] using hsum.1
        have : final.current_start + final.accumulated = shotsSum shots := by
          rw [hcs]
          linarith
        rw [← this]
        exact happ
      · simp
    · simp only [hacc, if_false]
      have haccz : final.accumulated = 0 := le_antisymm (not_lt.mp hacc) hsum.2
      constructor
      · have : final.current_start = shotsSum shots := by
          rw [hcs]
          have h1 : segsSum final.segments + final.accumulated = shotsSum shots := by
            simpa [hsum0] using hsum.1
          rw [haccz] at h1
          linarith
        rw [← this]
        exact hchain
      · rcases hprog with h | h
        · exact h
        · exact absurd h hacc
  refine ⟨key.2, by simpa using isChainFrom_sum 0 (shotsSum shots) _ key.1, ?_⟩
  intro p hp s hs
  rw [isChainFrom_getLast 0 (shotsSum shots) _ key.1 p hp,
    shotsContiguous_getLast 0 shots hcov s hs]
  ring

theorem segment_conserves_witness :
    (0 : ℚ) < 30 ∧ ([⟨0, 750, 0, 30, 30⟩] : List Shot) ≠ [] ∧
    ShotsContiguousFrom 0 ([⟨0, 750, 0, 30, 30⟩] : List Shot) ∧
    (SmartSegmenter.segment 30 [⟨0, 750, 0, 30, 30⟩] ≠ [] ∧
      segsSum (SmartSegmenter.segment 30 [⟨0, 750, 0, 30, 30⟩]) =
        shotsSum [⟨0, 750, 0, 30, 30⟩] ∧
      (∀ p ∈ (SmartSegmenter.segment 30 [⟨0, 750, 0, 30, 30⟩]).getLast?,
        ∀ s ∈ ([⟨0, 750, 0, 30, 30⟩] : List Shot).getLast?, p.2 = s.end_time)) :=
  ⟨by norm_num, by simp, by simp [ShotsContiguousFrom],
    segment_conserves 30 [⟨0, 750, 0, 30, 30⟩] (by norm_num) (by simp)
      (by simp [ShotsContiguousFrom])⟩

/-- C3: for every shot list and every `max_duration > 0`, every returned
segment `(start, end)` satisfies `end - start ≤ max_duration` (equality
allowed; exact in ℚ). -/
theorem segment_bounded (maxd : ℚ) (shots : List Shot) (hm : 0 < maxd) :
    ∀ p ∈ SmartSegmenter.segment maxd shots, p.2 - p.1 ≤ maxd := by
  have hbd := foldl_segStep_bound maxd hm shots ⟨[], 0, 0⟩ (by simpa using le_of_lt hm)
    (by simp)
  unfold SmartSegmenter.segment
  by_cases hne : shots = []
  · simp [hne]
  · simp only [hne, if_false]
    set final := shots.foldl (segStep maxd) ⟨[], 0, 0⟩ with hf
    by_cases hacc : 0 < final.accumulated
    · simp only [hacc, if_true]
      intro p hp
      rcases List.mem_append.mp hp with h1 | h2
      · exact hbd.2 p h1
      · simp at h2
        simp [h2, hbd.1]
    · simp only [hacc, if_false]
      exact hbd.2

theorem segment_bounded_witness :
    (0 : ℚ) < 30 ∧
    (∀ p ∈ SmartSegmenter.segment 30 [⟨0, 1000, 0, 40, 40⟩], p.2 - p.1 ≤ 30) :=
  ⟨by norm_num, segment_bounded 30 [⟨0, 1000, 0, 40, 40⟩] (by norm_num)⟩

theorem hsl_closed (maxd : ℚ) (hm : 0 < maxd) (r : ℚ) (hr0 : 0 < r) (hr : r ≤ maxd) :
    ∀ (k : ℕ) (a : ℚ) (segs : List (ℚ × ℚ)),
    hardSplitLoop maxd a (maxd * k + r) segs =
      (segs ++ (List.range k).map
          (fun i : ℕ => (a + (i : ℚ) * maxd, a + ((i : ℚ) + 1) * maxd)),
        a + (k : ℚ) * maxd, r) := by
  intro k
  induction k with
  | zero =>
    intro a segs
    rw [show maxd * ((0 : ℕ) : ℚ) + r = r by push_cast; ring]
    rw [hsl_exit maxd a r segs (by push_neg; intro _; exact hr)]
    simp
  | succ k ih =>
    intro a segs
    have hk0 : (0 : ℚ) ≤ maxd * k := mul_nonneg (le_of_lt hm) (by positivity)
    have hgt : maxd < maxd * ((k + 1 : ℕ) : ℚ) + r := by
      push_cast
      nlinarith
    rw [hsl_step maxd a _ segs hm hgt]
    have harg : maxd * ((k + 1 : ℕ) : ℚ) + r - maxd = maxd * (k : ℚ) + r := by
      push_cast
      ring
    rw [harg, ih (a + maxd) (segs ++ [(a, a + maxd)])]
    simp only [Prod.mk.injEq]
    refine ⟨?_, by push_cast; ring, trivial⟩
    rw [List.append_assoc]
    congr 1
    rw [List.range_succ_eq_map, List.map_cons, List.map_map, List.singleton_append]
    simp only [List.cons.injEq, List.map_inj_left, Function.comp_apply, Prod.mk.injEq]
    refine ⟨⟨by norm_num, by norm_num⟩, ?_⟩
    intro i hi
    constructor
    · push_cast; ring
    · push_cast; ring

/-- C4 -/
theorem segment_oversize_split (maxd r : ℚ) (k : ℕ) (sh : Shot) (hm : 0 < maxd)
    (hk : 1 ≤ k) (hr0 : 0 < r) (hr : r < maxd) (hdur : sh.duration = maxd * k + r) :
    SmartSegmenter.segment maxd [sh] =
      (List.range k).map (fun i : ℕ => ((i : ℚ) * maxd, ((i : ℚ) + 1) * maxd)) ++
        [((k : ℚ) * maxd, (k : ℚ) * maxd + r)] := by
  have hk1 : (1 : ℚ) ≤ (k : ℚ) := by exact_mod_cast hk
  have hloop := hsl_closed maxd hm r hr0 (le_of_lt hr) k 0 []
  have hstep : segStep maxd ⟨[], 0, 0⟩ sh =
      ⟨(List.range k).map
          (fun i : ℕ => ((0 : ℚ) + (i : ℚ) * maxd, (0 : ℚ) + ((i : ℚ) + 1) * maxd)) ++
          [((0 : ℚ) + (k : ℚ) * maxd, (0 : ℚ) + (k : ℚ) * maxd + r)],
        (0 : ℚ) + (k : ℚ) * maxd + r, 0⟩ := by
    unfold segStep
    rw [hdur]
    split_ifs with h1 h2 h3 h4
    · exfalso
      simp only at h1
      nlinarith [mul_le_mul_of_nonneg_left hk1 (le_of_lt hm)]
    · exfalso
      simp at h3
    · dsimp only
      rw [hloop]
      dsimp only
      rw [if_pos hr0]
      simp
    · exfalso
      simp at h4
    · exfalso
      simp only at h1
      exact h1 (by linarith [not_lt.mp h2])
  unfold SmartSegmenter.segment
  rw [if_neg (by simp)]
  simp only [List.foldl_cons, List.foldl_nil]
  rw [hstep]
  simp only [zero_add]
  rw [if_neg (by norm_num)]

theorem segment_oversize_split_witness :
    (0 : ℚ) < 30 ∧ 1 ≤ 2 ∧ (0 : ℚ) < 5 ∧ (5 : ℚ) < 30 ∧
      (⟨0, 1625, 0, 65, 65⟩ : Shot).duration = 30 * ((2 : ℕ) : ℚ) + 5 ∧
    SmartSegmenter.segment 30 [⟨0, 1625, 0, 65, 65⟩] =
      (List.range 2).map (fun i : ℕ => ((i : ℚ) * 30, ((i : ℚ) + 1) * 30)) ++
        [(((2 : ℕ) : ℚ) * 30, ((2 : ℕ) : ℚ) * 30 + 5)] :=
  ⟨by norm_num, by norm_num, by norm_num, by norm_num, by norm_num,
    segment_oversize_split 30 5 2 ⟨0, 1625, 0, 65, 65⟩ (by norm_num) (by norm_num)
      (by norm_num) (by norm_num) (by norm_num)⟩

/-- C5 -/
theorem segment_end_to_end :
    SmartSegmenter.segment 30
      [⟨0, 250, 0, 10, 10⟩, ⟨250, 625, 10, 25, 15⟩, ⟨625, 825, 25, 33, 8⟩,
       ⟨825, 1825, 33, 73, 40⟩, ⟨1825, 1950, 73, 78, 5⟩] =
      [(0, 25), (25, 33), (33, 63), (63, 73), (73, 78)] := by
  have h40 : hardSplitLoop 30 33 40 [(0, 25), (25, 33)] =
      ([(0, 25), (25, 33), (33, 63)], 63, 10) := by
    rw [hsl_step 30 33 40 _ (by norm_num) (by norm_num)]
    norm_num
    rw [hsl_exit 30 63 10 _ (by norm_num)]
  unfold SmartSegmenter.segment
  rw [if_neg (by simp)]
  norm_num [segStep, h40, List.foldl_cons, List.foldl_nil]

/-! ## C7, C8: per-task error handling -/

/-- C7 counterexample: the code marks a cut "success" on return code 0 even
when no (or an empty) output file was produced — `_cut_single_segment` never
checks the output file, contradicting the claimed success criterion. -/
theorem cut_success_no_file_check :
    ¬ ((cutSingleSegment (RunOutcome.completed 0 "" none) "video.mp4" 0 1
          "/tmp/segment_1.mp4" 1).status = true →
        (RunOutcome.completed 0 "" none).producedNonempty = true) := by
  decide

/-- C7 amended: a cut task is reported as success exactly when the external
trim subprocess completes with return code 0 (the produced output file is
never examined); every failure outcome (non-zero status, timeout, raised
exception) yields a failed record with a captured error message, and the
stage is total — no exception propagates. -/
theorem cut_single_segment_success_iff (outcome : RunOutcome)
    (video_path output_path : String) (start stop : ℚ) (index : Nat) :
    ((cutSingleSegment outcome video_path start stop output_path index).status = true ↔
      ∃ stderr produced, outcome = RunOutcome.completed 0 stderr produced) ∧
    ((cutSingleSegment outcome video_path start stop output_path index).error = none ↔
      (cutSingleSegment outcome video_path start stop output_path index).status = true) := by
  cases outcome with
  | completed rc stderr produced =>
    by_cases h : rc = 0
    · subst h
      simp [cutSingleSegment]
    · simp [cutSingleSegment, h]
  | timedOut => simp [cutSingleSegment]
  | raised msg => simp [cutSingleSegment]

/-- C8 counterexample: when the OSS `put_object` call returns a non-200
status, `upload_to_oss_from_local` returns `str(status)` instead of raising,
so `_upload_single_segment` records the upload as a success with
`oss_url = "500"` — not as a failure with `remote_url = none` as claimed. -/
theorem upload_non200_reported_success :
    (uploadSingleViaOss (fun _ => Except.ok ()) (fun _ => Except.ok 500) ".mp4"
        "ali-saving-data" "/tmp/segment_2.mp4" "demo-2" 2 10 20).status = true ∧
    (uploadSingleViaOss (fun _ => Except.ok ()) (fun _ => Except.ok 500) ".mp4"
        "ali-saving-data" "/tmp/segment_2.mp4" "demo-2" 2 10 20).oss_url = some "500" := by
  constructor
  · rfl
  · rfl

/-- C8 amended: an upload task is reported as success exactly when the
uploader returns without raising; the returned string (the remote URL when
the put returned HTTP 200, otherwise the stringified status code) is
recorded as the remote URL.  Only a raised exception (from reading the file
or from the put) gives a failed record, with the error captured and the
remote URL set to none. -/
theorem upload_single_segment_spec (readFile : String → Except String Unit)
    (putObject : String → Except String Nat)
    (file_extension bucket_name local_path task_id : String)
    (index : Nat) (start stop : ℚ) :
    ((uploadSingleViaOss readFile putObject file_extension bucket_name
        local_path task_id index start stop).status = true ↔
      ∃ u, upload_to_oss_from_local readFile putObject file_extension bucket_name
        local_path task_id = Except.ok u) ∧
    (∀ u, upload_to_oss_from_local readFile putObject file_extension bucket_name
        local_path task_id = Except.ok u →
      (uploadSingleViaOss readFile putObject file_extension bucket_name
        local_path task_id index start stop).oss_url = some u) ∧
    (∀ e, upload_to_oss_from_local readFile putObject file_extension bucket_name
        local_path task_id = Except.error e →
      (uploadSingleViaOss readFile putObject file_extension bucket_name
          local_path task_id index start stop).status = false ∧
      (uploadSingleViaOss readFile putObject file_extension bucket_name
          local_path task_id index start stop).oss_url = none ∧
      (uploadSingleViaOss readFile putObject file_extension bucket_name
          local_path task_id index start stop).error = some e) := by
  cases hup : upload_to_oss_from_local readFile putObject file_extension bucket_name
      local_path task_id with
  | ok u => simp [uploadSingleViaOss, uploadSingle, hup]
  | error e => simp [uploadSingleViaOss, uploadSingle, hup]

theorem upload_single_segment_spec_witness :
    (uploadSingleViaOss (fun _ => Except.error "io error") (fun _ => Except.ok 200) ".mp4"
        "ali-saving-data" "/tmp/segment_1.mp4" "demo-1" 1 0 1).status = false ∧
    (uploadSingleViaOss (fun _ => Except.error "io error") (fun _ => Except.ok 200) ".mp4"
        "ali-saving-data" "/tmp/segment_1.mp4" "demo-1" 1 0 1).oss_url = none ∧
    (uploadSingleViaOss (fun _ => Except.error "io error") (fun _ => Except.ok 200) ".mp4"
        "ali-saving-data" "/tmp/segment_1.mp4" "demo-1" 1 0 1).error = some "io error" :=
  (upload_single_segment_spec (fun _ => Except.error "io error") (fun _ => Except.ok 200)
    ".mp4" "ali-saving-data" "/tmp/segment_1.mp4" "demo-1" 1 0 1).2.2 "io error" rfl

/-! ## C9, C10: worker-pool sizing -/

/-- C9 counterexample: with 6 logical CPUs and no override the code returns
`int(6 * 0.6) = 3` (truncation), while the claimed formula
`clamp(round(6 * 0.6), 2, 48) = round(3.6) = 4`. -/
theorem get_max_workers_not_round :
    get_max_workers (some 6) none = 3 ∧
    max 2 (min 48 (round ((6 : ℚ) * 0.6))) = 4 := by
  constructor
  · rfl
  · rw [round_eq]
    norm_num

/-- C9 amended: without an override the pool size is
`clamp(floor(n * 0.6), 2, 48)` (truncation, not rounding): at least 2, at
most 48, and exactly `⌊n * 0.6⌋ = 3 * n / 5` whenever that value lies in
`[2, 48]`. -/
theorem get_max_workers_clamped_floor (n : ℕ) (hn : 0 < n) :
    (2 : Int) ≤ get_max_workers (some n) none ∧
    get_max_workers (some n) none ≤ 48 ∧
    (2 ≤ 3 * n / 5 → 3 * n / 5 ≤ 48 →
      get_max_workers (some n) none = ((3 * n / 5 : ℕ) : Int)) := by
  cases n with
  | zero => exact absurd hn (lt_irrefl 0)
  | succ m =>
    unfold get_max_workers
    refine ⟨?_, ?_, ?_⟩
    · simp
    · simp only []
      push_cast
      omega
    · intro h1 h2
      simp only []
      push_cast
      omega

theorem get_max_workers_clamped_floor_witness :
    0 < 10 ∧
    ((2 : Int) ≤ get_max_workers (some 10) none ∧
      get_max_workers (some 10) none ≤ 48 ∧
      (2 ≤ 3 * 10 / 5 → 3 * 10 / 5 ≤ 48 →
        get_max_workers (some 10) none = ((3 * 10 / 5 : ℕ) : Int))) :=
  ⟨by decide, get_max_workers_clamped_floor 10 (by decide)⟩

/-- C10: the environment override is applied after the `[2, 48]` clamp: any
string parsing as an integer (including 0, 1, negatives, values above 48)
is returned unclamped as the pool size, while a non-parsing value (or the
falsy empty string) is silently ignored, returning the computed clamped
size (the value `get_max_workers` returns with no override). -/
theorem get_max_workers_env_override (cpu : Option Nat) (s : String) :
    (∀ i : Int, pyIntOfString s = some i → get_max_workers cpu (some s) = i) ∧
    (s ≠ "" → pyIntOfString s = none →
      get_max_workers cpu (some s) = get_max_workers cpu none) ∧
    (s = "" → get_max_workers cpu (some s) = get_max_workers cpu none) := by
  refine ⟨?_, ?_, ?_⟩
  · intro i hi
    by_cases hs : s = ""
    · rw [hs] at hi
      simp [pyIntOfString, digitsToNat] at hi
    · simp [get_max_workers, hs, hi]
  · intro hs hnone
    simp [get_max_workers, hs, hnone]
  · intro hs
    simp [get_max_workers, hs]

theorem get_max_workers_env_override_witness :
    pyIntOfString "100" = some 100 ∧
    get_max_workers (some 4) (some "100") = 100 :=
  ⟨by decide, (get_max_workers_env_override (some 4) "100").1 100 (by decide)⟩

theorem cutSingleSegment_index (o : RunOutcome) (v : String) (s e : ℚ) (p : String)
    (i : Nat) : (cutSingleSegment o v s e p i).index = i := by
  cases o with
  | completed rc stderr produced =>
    by_cases h : rc = 0 <;> simp [cutSingleSegment, h]
  | timedOut => rfl
  | raised msg => rfl

theorem uploadSingle_index (up : String → String → Except String String)
    (lp tid : String) (i : Nat) (s e : ℚ) : (uploadSingle up lp tid i s e).index = i := by
  unfold uploadSingle
  cases up lp tid <;> rfl

theorem cutResultAt_index (run : Nat → RunOutcome) (v t : String)
    (segs : List (ℚ × ℚ)) (k : Nat) : (cutResultAt run v t segs k).index = k + 1 :=
  cutSingleSegment_index _ _ _ _ _ _

theorem uploadResultAt_index (run : Nat → RunOutcome)
    (up : String → String → Except String String) (v t name : String)
    (segs : List (ℚ × ℚ)) (k : Nat) :
    (uploadResultAt run up v t name segs k).index = k + 1 :=
  uploadSingle_index _ _ _ _ _ _

theorem stripStatus_index (u : UploadResult) : (stripStatus u).index = u.index := rfl

theorem mem_cutStage (run : Nat → RunOutcome) (v t : String) (segs : List (ℚ × ℚ))
    (c : CutResult) :
    c ∈ cutStage run v t segs ↔
      ∃ k, k < segs.length ∧ c = cutResultAt run v t segs k := by
  unfold cutStage
  rw [List.mem_map]
  constructor
  · rintro ⟨⟨i, p⟩, hmem, rfl⟩
    have hget : segs[i]? = some p := List.mk_mem_enum_iff_getElem?.mp hmem
    have hlen : i < segs.length := by
      by_contra hcon
      rw [List.getElem?_eq_none (le_of_not_lt hcon)] at hget
      exact Option.noConfusion hget
    refine ⟨i, hlen, ?_⟩
    unfold cutResultAt
    rw [List.getD_eq_getElem?_getD, hget]
    simp
  · rintro ⟨k, hk, rfl⟩
    refine ⟨(k, segs.getD k (0, 0)), ?_, ?_⟩
    · rw [List.mk_mem_enum_iff_getElem?, List.getD_eq_getElem?_getD,
        List.getElem?_eq_getElem hk]
      simp
    · unfold cutResultAt
      rfl

theorem cutStage_pairwise (run : Nat → RunOutcome) (v t : String) (segs : List (ℚ × ℚ)) :
    List.Pairwise (fun a b : CutResult => a.index < b.index) (cutStage run v t segs) := by
  unfold cutStage
  rw [List.pairwise_map]
  have h1 : List.Pairwise (fun p q : ℕ × (ℚ × ℚ) => p.1 < q.1) segs.enum := by
    have h0 := List.pairwise_lt_range segs.length
    rw [← List.enum_map_fst segs] at h0
    exact List.pairwise_map.mp h0
  refine h1.imp ?_
  intro a b hab
  simpa [cutSingleSegment_index] using Nat.add_lt_add_right hab 1

theorem mem_uploadStage (up : String → String → Except String String) (name : String)
    (l : List CutResult) (u : UploadResult) :
    u ∈ uploadStage up name l ↔
      ∃ c ∈ l, u = uploadSingle up (c.path.getD "") (name ++ "-" ++ toString c.index)
        c.index c.start c.stop := by
  unfold uploadStage
  rw [List.mem_map]
  constructor
  · rintro ⟨c, hc, rfl⟩
    exact ⟨c, hc, rfl⟩
  · rintro ⟨c, hc, rfl⟩
    exact ⟨c, hc, rfl⟩

theorem uploadStage_pairwise (up : String → String → Except String String) (name : String)
    (l : List CutResult)
    (h : List.Pairwise (fun a b : CutResult => a.index < b.index) l) :
    List.Pairwise (fun a b : UploadResult => a.index < b.index) (uploadStage up name l) := by
  unfold uploadStage
  rw [List.pairwise_map]
  refine h.imp ?_
  intro a b hab
  simpa [uploadSingle_index] using hab

theorem pairwise_lt_index_of_le_of_nodup (l : List UploadResult)
    (hle : List.Pairwise (fun a b : UploadResult => a.index ≤ b.index) l)
    (hnd : (l.map (fun r => r.index)).Nodup) :
    List.Pairwise (fun a b : UploadResult => a.index < b.index) l := by
  have hne : List.Pairwise (fun a b : UploadResult => a.index ≠ b.index) l :=
    List.pairwise_map.mp hnd
  exact (hle.and hne).imp (fun h => lt_of_le_of_ne h.1 h.2)

theorem nodup_index_of_pairwise_lt (l : List UploadResult)
    (h : List.Pairwise (fun a b : UploadResult => a.index < b.index) l) :
    (l.map (fun r => r.index)).Nodup :=
  List.pairwise_map.mpr (h.imp fun hab => Nat.ne_of_lt hab)

theorem mem_finalizeUploads (l : List UploadResult) (fr : FinalResult) :
    fr ∈ finalizeUploads l ↔ ∃ u ∈ l, u.status = true ∧ fr = stripStatus u := by
  unfold finalizeUploads
  rw [List.mem_map]
  constructor
  · rintro ⟨u, hu, rfl⟩
    rw [List.mem_insertionSort, List.mem_filter] at hu
    exact ⟨u, hu.1, hu.2, rfl⟩
  · rintro ⟨u, hu, hst, rfl⟩
    refine ⟨u, ?_, rfl⟩
    rw [List.mem_insertionSort, List.mem_filter]
    exact ⟨hu, hst⟩

theorem finalizeUploads_perm_eq (l1 l2 : List UploadResult) (hperm : l1.Perm l2)
    (hlt : List.Pairwise (fun a b : UploadResult => a.index < b.index)
      (l2.filter (fun r => r.status))) :
    finalizeUploads l1 = finalizeUploads l2 := by
  unfold finalizeUploads
  congr 1
  have hpf : (l1.filter (fun r => r.status)).Perm (l2.filter (fun r => r.status)) :=
    hperm.filter _
  have hs1 : (List.insertionSort (fun a b : UploadResult => a.index ≤ b.index)
      (l1.filter (fun r => r.status))).Perm (l2.filter (fun r => r.status)) :=
    (List.perm_insertionSort _ _).trans hpf
  have hs2 : (List.insertionSort (fun a b : UploadResult => a.index ≤ b.index)
      (l2.filter (fun r => r.status))).Perm (l2.filter (fun r => r.status)) :=
    List.perm_insertionSort _ _
  have hnd : ((l2.filter (fun r => r.status)).map (fun r => r.index)).Nodup :=
    nodup_index_of_pairwise_lt _ hlt
  have hlt1 : List.Pairwise (fun a b : UploadResult => a.index < b.index)
      (List.insertionSort (fun a b : UploadResult => a.index ≤ b.index)
        (l1.filter (fun r => r.status))) := by
    refine pairwise_lt_index_of_le_of_nodup _ (List.sorted_insertionSort _ _) ?_
    exact ((hs1.map (fun r => r.index))).nodup_iff.mpr hnd
  have hlt2 : List.Pairwise (fun a b : UploadResult => a.index < b.index)
      (List.insertionSort (fun a b : UploadResult => a.index ≤ b.index)
        (l2.filter (fun r => r.status))) := by
    refine pairwise_lt_index_of_le_of_nodup _ (List.sorted_insertionSort _ _) ?_
    exact ((hs2.map (fun r => r.index))).nodup_iff.mpr hnd
  exact List.eq_of_perm_of_sorted (hs1.trans hs2.symm) hlt1 hlt2

theorem canonical_uploads_pairwise (run : Nat → RunOutcome)
    (uploader : String → String → Except String String)
    (v t name : String) (segs : List (ℚ × ℚ)) :
    List.Pairwise (fun a b : UploadResult => a.index < b.index)
      (uploadStage uploader name ((cutStage run v t segs).filter (fun r => r.status))) :=
  uploadStage_pairwise _ _ _ ((cutStage_pairwise run v t segs).filter _)

/-- C6: for every video path, segment list and naming prefix, and any mix of
per-segment cut and upload failures (the `run` and `uploader` oracles) under
any `as_completed` completion orders (the two `Perm` hypotheses), the list
returned by `cut_and_upload` is strictly increasing by `index`, contains
exactly the indices whose cut AND upload both reported success, and each
returned entry is exactly the status-stripped record of its upload result
(fields index, start, end, duration, task_id, remote URL only). -/
theorem cut_and_upload_ordered (run : Nat → RunOutcome)
    (uploader : String → String → Except String String)
    (video_path temp_dir name : String) (segments : List (ℚ × ℚ))
    (cutResults : List CutResult) (uploadResults : List UploadResult)
    (hc : cutResults.Perm (cutStage run video_path temp_dir segments))
    (hu : uploadResults.Perm (uploadStage uploader name
      (cutResults.filter (fun r => r.status)))) :
    finalizeUploads uploadResults =
      cut_and_upload run uploader video_path temp_dir name segments ∧
    List.Pairwise (fun a b : FinalResult => a.index < b.index)
      (finalizeUploads uploadResults) ∧
    (∀ k : Nat, (∃ fr ∈ finalizeUploads uploadResults, fr.index = k + 1) ↔
      (k < segments.length ∧
        (cutResultAt run video_path temp_dir segments k).status = true ∧
        (uploadResultAt run uploader video_path temp_dir name segments k).status = true)) ∧
    (∀ fr ∈ finalizeUploads uploadResults, ∃ k, k < segments.length ∧
      fr.index = k + 1 ∧
      fr = stripStatus (uploadResultAt run uploader video_path temp_dir name segments k)) := by
  have hup2 : uploadResults.Perm (uploadStage uploader name
      ((cutStage run video_path temp_dir segments).filter (fun r => r.status))) := by
    refine hu.trans ?_
    exact (hc.filter _).map _
  have hUlt := canonical_uploads_pairwise run uploader video_path temp_dir name segments
  have heqfin : finalizeUploads uploadResults =
      cut_and_upload run uploader video_path temp_dir name segments :=
    finalizeUploads_perm_eq _ _ hup2 (hUlt.filter _)
  have hmemU : ∀ u : UploadResult,
      (u ∈ uploadStage uploader name
        ((cutStage run video_path temp_dir segments).filter (fun r => r.status))) ↔
      ∃ k, k < segments.length ∧
        (cutResultAt run video_path temp_dir segments k).status = true ∧
        u = uploadResultAt run uploader video_path temp_dir name segments k := by
    intro u
    rw [mem_uploadStage]
    constructor
    · rintro ⟨c, hcmem, rfl⟩
      rw [List.mem_filter] at hcmem
      obtain ⟨hcm, hcst⟩ := hcmem
      obtain ⟨k, hk, rfl⟩ := (mem_cutStage run video_path temp_dir segments c).mp hcm
      refine ⟨k, hk, hcst, ?_⟩
      unfold uploadResultAt
      rw [cutResultAt_index]
    · rintro ⟨k, hk, hst, rfl⟩
      refine ⟨cutResultAt run video_path temp_dir segments k, ?_, ?_⟩
      · rw [List.mem_filter]
        exact ⟨(mem_cutStage run video_path temp_dir segments _).mpr ⟨k, hk, rfl⟩, hst⟩
      · unfold uploadResultAt
        rw [cutResultAt_index]
  have hmemF : ∀ fr : FinalResult, fr ∈ finalizeUploads uploadResults ↔
      ∃ k, k < segments.length ∧
        (cutResultAt run video_path temp_dir segments k).status = true ∧
        (uploadResultAt run uploader video_path temp_dir name segments k).status = true ∧
        fr = stripStatus (uploadResultAt run uploader video_path temp_dir name segments k) := by
    intro fr
    rw [heqfin]
    unfold cut_and_upload
    rw [mem_finalizeUploads]
    constructor
    · rintro ⟨u, huU, hust, rfl⟩
      obtain ⟨k, hk, hcst, rfl⟩ := (hmemU u).mp huU
      exact ⟨k, hk, hcst, hust, rfl⟩
    · rintro ⟨k, hk, hcst, hust, rfl⟩
      exact ⟨_, (hmemU _).mpr ⟨k, hk, hcst, rfl⟩, hust, rfl⟩
  refine ⟨heqfin, ?_, ?_, ?_⟩
  · rw [heqfin]
    unfold cut_and_upload finalizeUploads
    rw [List.pairwise_map]
    have hsorted : List.Pairwise (fun a b : UploadResult => a.index < b.index)
        (List.insertionSort (fun a b : UploadResult => a.index ≤ b.index)
          ((uploadStage uploader name
            ((cutStage run video_path temp_dir segments).filter
              (fun r => r.status))).filter (fun r => r.status))) := by
      refine pairwise_lt_index_of_le_of_nodup _ (List.sorted_insertionSort _ _) ?_
      have hnd := nodup_index_of_pairwise_lt _ (hUlt.filter (fun r => r.status))
      exact (((List.perm_insertionSort (fun a b : UploadResult => a.index ≤ b.index)
        _).map (fun r : UploadResult => r.index))).nodup_iff.mpr hnd
    exact hsorted.imp (fun hab => by simpa [stripStatus_index] using hab)
  · intro k
    constructor
    · rintro ⟨fr, hfr, hidx⟩
      obtain ⟨j, hj, hcst, hust, rfl⟩ := (hmemF fr).mp hfr
      have : j + 1 = k + 1 := by
        rw [← hidx, stripStatus_index, uploadResultAt_index]
      have hjk : j = k := Nat.succ_injective this
      subst hjk
      exact ⟨hj, hcst, hust⟩
    · rintro ⟨hk, hcst, hust⟩
      refine ⟨stripStatus (uploadResultAt run uploader video_path temp_dir name segments k),
        (hmemF _).mpr ⟨k, hk, hcst, hust, rfl⟩, ?_⟩
      rw [stripStatus_index, uploadResultAt_index]
  · intro fr hfr
    obtain ⟨k, hk, hcst, hust, rfl⟩ := (hmemF fr).mp hfr
    exact ⟨k, hk, by rw [stripStatus_index, uploadResultAt_index], rfl⟩

theorem cut_and_upload_ordered_witness :
    finalizeUploads (uploadStage (fun _ _ => Except.ok "https://u") "demo"
        ((cutStage (fun _ => RunOutcome.completed 0 "" (some 1)) "v.mp4" "/tmp"
          [((0 : ℚ), (10 : ℚ)), (10, 20)]).filter (fun r => r.status))) =
      cut_and_upload (fun _ => RunOutcome.completed 0 "" (some 1))
        (fun _ _ => Except.ok "https://u") "v.mp4" "/tmp" "demo"
        [((0 : ℚ), (10 : ℚ)), (10, 20)] :=
  (cut_and_upload_ordered (fun _ => RunOutcome.completed 0 "" (some 1))
    (fun _ _ => Except.ok "https://u") "v.mp4" "/tmp" "demo"
    [((0 : ℚ), (10 : ℚ)), (10, 20)]
    (cutStage (fun _ => RunOutcome.completed 0 "" (some 1)) "v.mp4" "/tmp"
      [((0 : ℚ), (10 : ℚ)), (10, 20)])
    (uploadStage (fun _ _ => Except.ok "https://u") "demo"
      ((cutStage (fun _ => RunOutcome.completed 0 "" (some 1)) "v.mp4" "/tmp"
        [((0 : ℚ), (10 : ℚ)), (10, 20)]).filter (fun r => r.status)))
    (List.Perm.refl _) (List.Perm.refl _)).1
